import Mathlib

/-!
Verification of `worded_domain_checkr.py`: a shallow embedding of the
dictionary filter, the batch chunking of the orchestration loop, the
availability client, the credential loader, and the event trace of the
main pipeline, together with theorems settling the specified properties.

Strings are modelled as `List Char`; the dictionary file content is the
list of its lines; the network and the environment appear as explicit
functional parameters.
-/

abbrev Str := List Char

/-- Constant `BATCH_SIZE = 70` (line 22 of the source). -/
def BATCH_SIZE : Nat := 70

/-- Constant `DELAY_SECONDS = 4` (line 23 of the source). -/
def DELAY_SECONDS : Nat := 4

/-- Python `str.strip()`: remove leading and trailing whitespace. -/
def pyStrip (s : Str) : Str :=
  ((s.dropWhile Char.isWhitespace).reverse.dropWhile Char.isWhitespace).reverse

/-- Python `str.lower()`: lowercase every character. -/
def pyLower (s : Str) : Str := s.map Char.toLower

/-- Python `str.isalpha()`: nonempty and every character alphabetic. -/
def pyIsAlpha (s : Str) : Bool := !s.isEmpty && s.all Char.isAlpha

/-- `load_dictionary_words` (lines 55-73): read the lines, keep
nonblank ones stripped and lowercased, filter by exact length when
`length` is given and otherwise by the optional `min_length` and
`max_length` bounds, and finally keep only purely-alphabetic words.
The file content is passed as its list of lines. -/
def load_dictionary_words (lines : List Str)
    (length min_length max_length : Option Nat) : List Str :=
  let words := (lines.filter (fun l => !(pyStrip l).isEmpty)).map
    (fun l => pyLower (pyStrip l))
  let words :=
    match length with
    | some L => words.filter (fun (w : Str) => w.length == L)
    | none =>
      let words1 :=
        match min_length with
        | some m => words.filter (fun (w : Str) => decide (m ≤ w.length))
        | none => words
      match max_length with
      | some M => words1.filter (fun (w : Str) => decide (w.length ≤ M))
      | none => words1
  words.filter pyIsAlpha

/-- One per-domain availability result parsed from the API response:
the `domain` string and the truthiness of its `available` field. -/
structure ApiResult where
  domain : Str
  available : Bool
deriving DecidableEq

/-- Outcome of the one network call of `check_batch`: either a
successful response whose parsed `domains` list is carried, or a
request failure (`requests.exceptions.RequestException`, including
`raise_for_status`). -/
inductive NetOutcome where
  | ok : List ApiResult → NetOutcome
  | failure : NetOutcome
deriving DecidableEq

/-- `DomainChecker.check_batch` (lines 39-52): issue the network call;
on success return the parsed per-domain results, on any request
failure log and return the empty list. The network is the functional
parameter `net`. -/
def check_batch (net : List Str → NetOutcome) (domains : List Str) :
    List ApiResult :=
  match net domains with
  | NetOutcome.ok results => results
  | NetOutcome.failure => []

/-- Start indices of the batches: Python `range(0, n, BATCH_SIZE)`
(line 195), i.e. the multiples of `BATCH_SIZE` below `n`. -/
def batchStarts (n : Nat) : List Nat :=
  (List.range ((n + BATCH_SIZE - 1) / BATCH_SIZE)).map
    (fun j => j * BATCH_SIZE)

/-- The batches of the orchestration loop: the slices
`words[i:i+BATCH_SIZE]` for each start index `i` (lines 195-196). -/
def batches (words : List Str) : List (List Str) :=
  (batchStarts words.length).map
    (fun i => (words.drop i).take BATCH_SIZE)

/-- The inner result loop (lines 199-205): append `r.domain` to the
accumulator for every result whose `available` field is truthy. -/
def processResults (results : List ApiResult) (acc : List Str) :
    List Str :=
  results.foldl
    (fun acc r => if r.available then acc ++ [r.domain] else acc) acc

/-- The per-TLD loop body of `main` (lines 195-205): fold over the
batches, sending `word + tld` for each word of the batch to the client
and accumulating the available domains. -/
def processTld (client : List Str → List ApiResult)
    (words : List Str) (tld : Str) : List Str :=
  (batches words).foldl
    (fun acc batch =>
      processResults (client (batch.map (fun w => w ++ tld))) acc) []

/-- The result mapping `available_domains` built by `main`
(lines 190-212), as an association list keyed by the requested TLDs. -/
def available_domains (client : List Str → List ApiResult)
    (words : List Str) (tlds : List Str) : List (Str × List Str) :=
  tlds.map (fun tld => (tld, processTld client words tld))

/-- `load_credentials` (lines 144-154): exit with status 1 when either
environment value is absent or empty (Python falsiness of `None` and
`""`), otherwise return the pair unchanged. The environment lookups
are passed as `Option` values. -/
def load_credentials (api_key api_secret : Option Str) :
    Except Nat (Str × Str) :=
  match api_key, api_secret with
  | some k, some s =>
    if k.isEmpty || s.isEmpty then Except.error 1 else Except.ok (k, s)
  | _, _ => Except.error 1

/-- The rate-limit guard of line 211: sleep exactly when
`i + BATCH_SIZE < len(words)`. -/
def sleepAfter (n i : Nat) : Bool := decide (i + BATCH_SIZE < n)

/-- Observable events of a run of `main`: an API call carrying the
batch of domain strings, a sleep of a given number of seconds, the
final `save_results` call carrying the mapping, and `sys.exit`. -/
inductive Event where
  | apiCall : List Str → Event
  | sleep : Nat → Event
  | save : List (Str × List Str) → Event
  | exitCode : Nat → Event
deriving DecidableEq

/-- The events of one batch iteration (lines 196-212): the API call,
then a `DELAY_SECONDS` sleep exactly when the guard of line 211
holds. -/
def batchEvents (words : List Str) (tld : Str) (i : Nat) : List Event :=
  Event.apiCall (((words.drop i).take BATCH_SIZE).map (fun w => w ++ tld)) ::
    (if sleepAfter words.length i then [Event.sleep DELAY_SECONDS] else [])

/-- The events of the loop over one TLD (lines 192-212). -/
def tldEvents (words : List Str) (tld : Str) : List Event :=
  ((batchStarts words.length).map (batchEvents words tld)).flatten

/-- The event trace of `main` from the word filtering on
(lines 175-215): exit with status 1 when no word survives, otherwise
run every TLD loop and save the result mapping. -/
def mainTrace (client : List Str → List ApiResult) (lines : List Str)
    (len mn mx : Option Nat) (tlds : List Str) : List Event :=
  let words := load_dictionary_words lines len mn mx
  if words.isEmpty then [Event.exitCode 1]
  else (tlds.map (tldEvents words)).flatten ++
    [Event.save (available_domains client words tlds)]

/-- The word `abc` of the testable-property examples. -/
def abcW : Str := ['a', 'b', 'c']

/-- The word `ab`. -/
def abW : Str := ['a', 'b']

/-- The word `abcd`. -/
def abcdW : Str := ['a', 'b', 'c', 'd']

/-- The word `xyz`. -/
def xyzW : Str := ['x', 'y', 'z']

/-- The suffix `.com`. -/
def dotCom : Str := ['.', 'c', 'o', 'm']

/-- The domain `abc.com`. -/
def abcCom : Str := abcW ++ dotCom

/-- The dictionary content `["ab", "abc", "abcd"]` of the examples. -/
def exampleLines : List Str := [abW, abcW, abcdW]

/-- The two-word list `["abc", "xyz"]` of the simulated-client
example. -/
def simWords : List Str := [abcW, xyzW]

/-- The simulated client of the example: it reports `abc.com`
available and every other domain (in particular `xyz.com`) not
available. -/
def simClient : List Str → List ApiResult :=
  fun ds => ds.map (fun d => ⟨d, d == abcCom⟩)

/-- A network on which every request fails. -/
def failNet : List Str → NetOutcome := fun _ => NetOutcome.failure

/-- A 71-word list, giving two batches (71 > BATCH_SIZE). -/
def words71 : List Str := List.replicate 71 abcW

/-! ### Helper lemmas -/

theorem mem_batchStarts (n i : Nat) :
    i ∈ batchStarts n ↔ BATCH_SIZE ∣ i ∧ i < n := by
  simp only [batchStarts, BATCH_SIZE, List.mem_map, List.mem_range]
  constructor
  · rintro ⟨j, hj, rfl⟩
    exact ⟨by omega, by omega⟩
  · rintro ⟨⟨j, rfl⟩, hlt⟩
    exact ⟨j, by omega, by omega⟩

theorem batches_cons (a : Str) (as : List Str) :
    batches (a :: as) =
      (a :: as).take BATCH_SIZE :: batches ((a :: as).drop BATCH_SIZE) := by
  have hk : ((a :: as).length + BATCH_SIZE - 1) / BATCH_SIZE
      = (((a :: as).drop BATCH_SIZE).length + BATCH_SIZE - 1) / BATCH_SIZE + 1 := by
    simp only [List.length_cons, List.length_drop, BATCH_SIZE]
    omega
  unfold batches batchStarts
  rw [hk, List.range_succ_eq_map]
  simp only [List.map_cons, List.map_map, Function.comp, Nat.zero_mul,
    List.drop_zero]
  congr 1
  have hfun : (fun j => (((a :: as).drop ((j + 1) * BATCH_SIZE)).take BATCH_SIZE))
      = (fun j => ((((a :: as).drop BATCH_SIZE).drop (j * BATCH_SIZE)).take BATCH_SIZE)) := by
    funext j
    rw [List.drop_drop]
    congr 1
    congr 1
    exact (Nat.succ_mul j BATCH_SIZE).trans (Nat.add_comm _ _)
  simpa using congrArg (fun f => List.map f
    (List.range ((((a :: as).drop BATCH_SIZE).length + BATCH_SIZE - 1) / BATCH_SIZE))) hfun

theorem batches_flatten : ∀ (l : List Str), (batches l).flatten = l
  | [] => by simp [batches, batchStarts]
  | a :: as => by
      rw [batches_cons]
      have ih := batches_flatten ((a :: as).drop BATCH_SIZE)
      simp only [List.flatten_cons, ih, List.take_append_drop]
  termination_by l => l.length
  decreasing_by simp only [List.length_drop, List.length_cons, BATCH_SIZE]; omega

theorem mem_processResults (d : Str) :
    ∀ (results : List ApiResult) (acc : List Str),
      d ∈ processResults results acc ↔
        d ∈ acc ∨ ∃ r ∈ results, r.available = true ∧ r.domain = d
  | [], acc => by simp [processResults]
  | r :: rs, acc => by
      have ih := mem_processResults d rs
        (if r.available then acc ++ [r.domain] else acc)
      simp only [processResults, List.foldl_cons] at ih ⊢
      rw [ih]
      by_cases h : r.available
      · simp only [h, if_true, List.mem_append, List.mem_cons,
          List.mem_singleton, List.not_mem_nil]
        constructor
        · rintro ((h1 | (rfl | h0)) | ⟨r2, h2, h3⟩)
          · exact Or.inl h1
          · exact Or.inr ⟨r, Or.inl rfl, h, rfl⟩
          · exact h0.elim
          · exact Or.inr ⟨r2, Or.inr h2, h3⟩
        · rintro (h1 | ⟨r2, (rfl | h2), h3⟩)
          · exact Or.inl (Or.inl h1)
          · exact Or.inl (Or.inr (Or.inl h3.2.symm))
          · exact Or.inr ⟨r2, h2, h3⟩
      · simp only [h, if_false, List.mem_cons]
        constructor
        · rintro (h1 | ⟨r2, h2, h3⟩)
          · exact Or.inl h1
          · exact Or.inr ⟨r2, Or.inr h2, h3⟩
        · rintro (h1 | ⟨r2, (rfl | h2), h3⟩)
          · exact Or.inl h1
          · exact absurd h3.1 (by simp [h])
          · exact Or.inr ⟨r2, h2, h3⟩

theorem mem_foldl_batches (client : List Str → List ApiResult)
    (tld : Str) (d : Str) :
    ∀ (bs : List (List Str)) (acc : List Str),
      d ∈ bs.foldl (fun acc batch =>
          processResults (client (batch.map (fun w => w ++ tld))) acc) acc →
        d ∈ acc ∨ ∃ b ∈ bs, ∃ r ∈ client (b.map (fun w => w ++ tld)),
          r.available = true ∧ r.domain = d
  | [], acc => by simp
  | b :: bs, acc => by
      intro hd
      simp only [List.foldl_cons] at hd
      rcases mem_foldl_batches client tld d bs _ hd with h1 | ⟨b2, h2, h3⟩
      · rcases (mem_processResults d _ _).1 h1 with h4 | ⟨r, h5, h6⟩
        · exact Or.inl h4
        · exact Or.inr ⟨b, List.mem_cons_self b bs, r, h5, h6⟩
      · exact Or.inr ⟨b2, List.mem_cons_of_mem b h2, h3⟩

theorem mem_processTld (client : List Str → List ApiResult)
    (words : List Str) (tld : Str) (d : Str)
    (hd : d ∈ processTld client words tld) :
    ∃ b ∈ batches words, ∃ r ∈ client (b.map (fun w => w ++ tld)),
      r.available = true ∧ r.domain = d := by
  rcases mem_foldl_batches client tld d (batches words) [] hd with h1 | h2
  · simp at h1
  · exact h2

/-! ### Claim theorems -/

/-- Claim C1: the keys of the result mapping built by the orchestration
loop are exactly the requested TLD suffixes; every domain listed under a
suffix was reported available (`available = true`) by the client in some
batch of that suffix; and with the simulated client the `.com` entry is
exactly `["abc.com"]`. -/
theorem available_domains_spec (client : List Str → List ApiResult)
    (words tlds : List Str) :
    (available_domains client words tlds).map Prod.fst = tlds ∧
    (∀ tld ds, (tld, ds) ∈ available_domains client words tlds →
      ∀ d ∈ ds, ∃ b ∈ batches words,
        ∃ r ∈ client (b.map (fun w => w ++ tld)),
          r.available = true ∧ r.domain = d) ∧
    available_domains simClient simWords [dotCom] = [(dotCom, [abcCom])] := by
  refine ⟨?_, ?_, by decide⟩
  · simp only [available_domains, List.map_map]
    exact List.map_id tlds
  · intro tld ds hmem d hd
    simp only [available_domains, List.mem_map] at hmem
    obtain ⟨tld2, -, heq⟩ := hmem
    injection heq with h1 h2
    subst h1
    subst h2
    exact mem_processTld client words tld2 d hd

/-- Witness for Claim C1 at the simulated-client example. -/
theorem available_domains_spec_witness :
    ∃ b ∈ batches simWords,
      ∃ r ∈ simClient (b.map (fun w => w ++ dotCom)),
        r.available = true ∧ r.domain = abcCom :=
  (available_domains_spec simClient simWords [dotCom]).2.1 dotCom [abcCom]
    (by decide) abcCom (by decide)

/-- Claim C2: concatenating the batches of the orchestration loop in
order reproduces the filtered word list exactly, and no batch holds
more than `BATCH_SIZE` words. -/
theorem batch_chunking_spec (words : List Str) :
    (batches words).flatten = words ∧
      ∀ b ∈ batches words, b.length ≤ BATCH_SIZE := by
  refine ⟨batches_flatten words, ?_⟩
  intro b hb
  simp only [batches, List.mem_map] at hb
  obtain ⟨i, -, rfl⟩ := hb
  rw [List.length_take]
  exact min_le_left _ _

/-- Witness for Claim C2 on the two-word list. -/
theorem batch_chunking_spec_witness :
    (batches simWords).flatten = simWords ∧ simWords.length ≤ BATCH_SIZE :=
  ⟨(batch_chunking_spec simWords).1,
    (batch_chunking_spec simWords).2 simWords (by decide)⟩

/-- Claim C3: with an exact length `L`, every word returned by
`load_dictionary_words` has length exactly `L`; and on the dictionary
`["ab", "abc", "abcd"]` with exact length 3 the result is exactly
`["abc"]`. -/
theorem exact_length_filter_spec :
    (∀ (lines : List Str) (L : Nat) (mn mx : Option Nat) (w : Str),
        w ∈ load_dictionary_words lines (some L) mn mx → w.length = L) ∧
    load_dictionary_words exampleLines (some 3) none none = [abcW] := by
  refine ⟨?_, by decide⟩
  intro lines L mn mx w hw
  simp only [load_dictionary_words, List.mem_filter, beq_iff_eq] at hw
  exact hw.1.2

/-- Witness for Claim C3 at the example dictionary. -/
theorem exact_length_filter_spec_witness : abcW.length = 3 :=
  exact_length_filter_spec.1 exampleLines 3 none none abcW (by decide)

/-- Claim C4: with a minimum and a maximum bound (and no exact length),
every word returned by `load_dictionary_words` has length within
`[mn, mx]` inclusive. -/
theorem min_max_filter_spec (lines : List Str) (mn mx : Nat) (w : Str)
    (hw : w ∈ load_dictionary_words lines none (some mn) (some mx)) :
    mn ≤ w.length ∧ w.length ≤ mx := by
  simp only [load_dictionary_words, List.mem_filter,
    decide_eq_true_eq] at hw
  exact ⟨hw.1.1.2, hw.1.2⟩

/-- Witness for Claim C4 at the example dictionary with bounds 2..3. -/
theorem min_max_filter_spec_witness :
    2 ≤ abW.length ∧ abW.length ≤ 3 :=
  min_max_filter_spec exampleLines 2 3 abW (by decide)

/-- Claim C5: for every file content and filter configuration, no word
containing a non-alphabetic character appears in the result of
`load_dictionary_words`. -/
theorem alphabetic_filter_spec (lines : List Str)
    (len mn mx : Option Nat) (w : Str)
    (hw : w ∈ load_dictionary_words lines len mn mx) :
    ∀ c ∈ w, c.isAlpha = true := by
  simp only [load_dictionary_words] at hw
  have h2 := (List.mem_filter.mp hw).2
  simp only [pyIsAlpha, Bool.and_eq_true, List.all_eq_true] at h2
  exact fun c hc => h2.2 c hc

/-- Witness for Claim C5 at the example dictionary. -/
theorem alphabetic_filter_spec_witness : ('a' : Char).isAlpha = true :=
  alphabetic_filter_spec exampleLines (some 3) none none abcW
    (by decide) 'a' (by decide)

/-- Claim C6: when zero words survive the filtering, the run exits with
status 1 and its trace holds no API call and no `save_results` call. -/
theorem no_surviving_words_exit (client : List Str → List ApiResult)
    (lines : List Str) (len mn mx : Option Nat) (tlds : List Str)
    (h : load_dictionary_words lines len mn mx = []) :
    mainTrace client lines len mn mx tlds = [Event.exitCode 1] ∧
    (∀ ds, Event.apiCall ds ∉ mainTrace client lines len mn mx tlds) ∧
    (∀ m, Event.save m ∉ mainTrace client lines len mn mx tlds) := by
  have h1 : mainTrace client lines len mn mx tlds = [Event.exitCode 1] := by
    simp [mainTrace, h]
  refine ⟨h1, ?_, ?_⟩
  · intro ds
    rw [h1]
    simp
  · intro m
    rw [h1]
    simp

/-- Witness for Claim C6 on an empty dictionary. -/
theorem no_surviving_words_exit_witness :
    mainTrace simClient [] none none none [dotCom] = [Event.exitCode 1] :=
  (no_surviving_words_exit simClient [] none none none [dotCom] rfl).1

/-- Claim C7: `check_batch` returns the parsed result list of a
successful response, and on a request failure returns the empty list,
which leaves the orchestration accumulator unchanged (the failed batch
contributes zero results). -/
theorem check_batch_error_spec (net : List Str → NetOutcome)
    (domains : List Str) :
    (∀ rs, net domains = NetOutcome.ok rs → check_batch net domains = rs) ∧
    (net domains = NetOutcome.failure →
      check_batch net domains = [] ∧
      ∀ acc : List Str, processResults (check_batch net domains) acc = acc) := by
  constructor
  · intro rs h
    simp [check_batch, h]
  · intro h
    simp [check_batch, h, processResults]

/-- Witness for Claim C7 on an always-failing network. -/
theorem check_batch_error_spec_witness :
    check_batch failNet [abcCom] = [] ∧
    processResults (check_batch failNet [abcCom]) [xyzW] = [xyzW] := by
  have h := (check_batch_error_spec failNet [abcCom]).2 rfl
  exact ⟨h.1, h.2 [xyzW]⟩

/-- Claim C8: within a TLD loop, the `DELAY_SECONDS` sleep happens in a
batch iteration exactly when that batch is not the final one, i.e. when
a later batch start index exists. -/
theorem sleep_iff_not_final_batch (words : List Str) (tld : Str) (i : Nat)
    (h : i ∈ batchStarts words.length) :
    Event.sleep DELAY_SECONDS ∈ batchEvents words tld i ↔
      ∃ j ∈ batchStarts words.length, i < j := by
  have hmem : (Event.sleep DELAY_SECONDS ∈ batchEvents words tld i) ↔
      sleepAfter words.length i = true := by
    by_cases hs : sleepAfter words.length i <;> simp [batchEvents, hs]
  have hi := (mem_batchStarts words.length i).mp h
  simp only [BATCH_SIZE] at hi
  rw [hmem]
  simp only [sleepAfter, BATCH_SIZE, decide_eq_true_eq]
  constructor
  · intro hlt
    refine ⟨i + 70, ?_, by omega⟩
    rw [mem_batchStarts]
    simp only [BATCH_SIZE]
    exact ⟨by omega, hlt⟩
  · rintro ⟨j, hj, hij⟩
    have hj2 := (mem_batchStarts words.length j).mp hj
    simp only [BATCH_SIZE] at hj2
    omega

/-- Witness for Claim C8 on a 71-word list with two batches. -/
theorem sleep_iff_not_final_batch_witness :
    Event.sleep DELAY_SECONDS ∈ batchEvents words71 dotCom 0 :=
  (sleep_iff_not_final_batch words71 dotCom 0 (by decide)).mpr
    ⟨70, by decide, by decide⟩

/-- Claim C9: an exact length takes precedence in
`load_dictionary_words`: simultaneous `min_length` and `max_length`
arguments are ignored, so the result equals filtering with the exact
length alone. -/
theorem exact_length_precedence (lines : List Str) (L : Nat)
    (mn mx : Option Nat) :
    load_dictionary_words lines (some L) mn mx =
      load_dictionary_words lines (some L) none none := rfl

/-- Claim C10: `load_credentials` treats an empty credential like an
absent one — missing or empty key or secret exits with status 1 —
and with both nonempty it returns the pair unchanged. -/
theorem load_credentials_spec (key secret : Option Str) (k s : Str) :
    load_credentials none secret = Except.error 1 ∧
    load_credentials (some []) secret = Except.error 1 ∧
    load_credentials key none = Except.error 1 ∧
    load_credentials key (some []) = Except.error 1 ∧
    (k ≠ [] → s ≠ [] →
      load_credentials (some k) (some s) = Except.ok (k, s)) := by
  refine ⟨?_, ?_, ?_, ?_, ?_⟩
  · cases secret <;> rfl
  · cases secret <;> simp [load_credentials]
  · cases key <;> rfl
  · cases key <;> simp [load_credentials]
  · intro hk hs
    simp [load_credentials, List.isEmpty_iff, hk, hs]

/-- Witness for Claim C10 on concrete credentials. -/
theorem load_credentials_spec_witness :
    load_credentials none (some abcW) = Except.error 1 ∧
    load_credentials (some abcW) (some xyzW) = Except.ok (abcW, xyzW) := by
  have h := load_credentials_spec none (some abcW) abcW xyzW
  exact ⟨h.1, h.2.2.2.2 (by decide) (by decide)⟩
